import Mathlib

/-!
Verification of the DSP core of the noaa-apt repository (`src/dsp.rs`).

Samples are modelled as real numbers: exact real arithmetic stands in for
`f32`, so floating-point rounding, overflow and saturating casts are not
modelled.  Rust functions that can panic are embedded as `Option`-valued
functions, with `none` standing for a panic.  Integer-indexed loops are
embedded index-for-index; every list built by a Rust `for`/`while` loop is
built here as a `List.map` over the same index range, or by structural
recursion with explicit fuel when the Rust loop condition is not a simple
range bound.
-/

namespace Dsp

/-- Modelled from the spec: the modified Bessel function `I₀` lives in the
`misc` module, which is not among the sources.  §4.2 of the spec defines
`I₀(x) = Σₖ (x/2)^(2k) / (k!)²`; this is that series, summed exactly. -/
noncomputable def bessel_i0 (x : ℝ) : ℝ :=
  tsum (fun k : ℕ => (x / 2) ^ (2 * k) / ((Nat.factorial k : ℝ)) ^ 2)

/-- The Kaiser shape parameter `beta` computed by `kaiser`
(`dsp.rs` lines 250-257), with the branch order of the source. -/
noncomputable def kaiserBeta (atten : ℝ) : ℝ :=
  if atten > 50 then 0.1102 * (atten - 8.7)
  else if atten < 21 then 0
  else 0.5842 * Real.rpow (atten - 21) 0.4 + 0.07886 * (atten - 21)

/-- The window length computed by `kaiser` (`dsp.rs` lines 260-263):
`ceil((atten - 8) / (2.285 * pi * delta_w)) + 1`, incremented once more when
even.  The `f32 -> i32` cast of the source is modelled as exact. -/
noncomputable def kaiserLength (atten delta_w : ℝ) : ℤ :=
  let l0 : ℤ := ⌈(atten - 8) / (2.285 * Real.pi * delta_w)⌉ + 1
  if l0 % 2 = 0 then l0 + 1 else l0

/-- The tap pushed by the window loop of `kaiser` (`dsp.rs` lines 268-273) at
the `j`-th iteration, i.e. at `n = j - (length-1)/2`, with `m` the length as a
float: `bessel(beta * (1 - (n/(m/2))^2).sqrt()) / bessel(beta)`. -/
noncomputable def kaiserTap (atten delta_w : ℝ) (j : ℕ) : ℝ :=
  let beta := kaiserBeta atten
  let length := kaiserLength atten delta_w
  let n : ℝ := (j : ℝ) - (((length - 1) / 2 : ℤ) : ℝ)
  let m : ℝ := (length : ℝ)
  bessel_i0 (beta * Real.sqrt (1 - (n / (m / 2)) ^ 2)) / bessel_i0 beta

/-- Kaiser window design (`dsp.rs` lines 244-278).  When the computed length
is negative, the `i32 -> usize` cast in `Vec::with_capacity(length as usize)`
wraps to a value above `isize::MAX` and `with_capacity` panics (capacity
overflow); this is modelled as `none`.  Otherwise the loop
`for n in -(length-1)/2 ..= (length-1)/2` pushes one tap per `n` — the length
is always odd (see `kaiserLength_odd`), hence here nonnegative means `≥ 1`,
the loop runs `length` times, and iteration `j` pushes `kaiserTap`. -/
noncomputable def kaiser (atten delta_w : ℝ) : Option (List ℝ) :=
  if kaiserLength atten delta_w < 0 then none
  else some ((List.range (kaiserLength atten delta_w).toNat).map
    (kaiserTap atten delta_w))

/-- Elementwise product of two vectors (`dsp.rs` lines 160-170); `none`
models the panic on mismatched lengths. -/
def product (v1 v2 : List ℝ) : Option (List ℝ) :=
  if v1.length = v2.length then some (List.zipWith (fun a b => a * b) v1 v2)
  else none

/-- The ideal (unwindowed) Hilbert taps pushed by the loop
`for n in -(m-1)/2 ..= (m-1)/2` in `hilbert` (`dsp.rs` lines 190-199);
`m` is the window length, and the `j`-th pushed tap corresponds to
`n = j - (m-1)/2`. -/
noncomputable def hilbertIdeal (m : ℕ) : List ℝ :=
  (List.range (2 * ((m - 1) / 2) + 1)).map (fun (j : ℕ) =>
    let n : ℤ := (j : ℤ) - ((m - 1) / 2 : ℕ)
    if n % 2 ≠ 0 then 2 / (Real.pi * (n : ℝ)) else 0)

/-- Hilbert FIR design (`dsp.rs` lines 176-204): Kaiser window, loud failure
on an even window length, then the windowed ideal taps. -/
noncomputable def hilbert (atten delta_w : ℝ) : Option (List ℝ) :=
  match kaiser atten delta_w with
  | none => none
  | some window =>
    if window.length % 2 = 0 then none
    else product (hilbertIdeal window.length) window

/-- The ideal (unwindowed) lowpass taps pushed by the loop
`for n in -(m-1)/2 ..= (m-1)/2` in `lowpass` (`dsp.rs` lines 224-233);
`m` is the window length, and the `j`-th pushed tap corresponds to
`n = j - (m-1)/2`. -/
noncomputable def lowpassIdeal (cutout : ℝ) (m : ℕ) : List ℝ :=
  (List.range (2 * ((m - 1) / 2) + 1)).map (fun (j : ℕ) =>
    let n : ℤ := (j : ℤ) - ((m - 1) / 2 : ℕ)
    if n = 0 then cutout
    else Real.sin ((n : ℝ) * Real.pi * cutout) / ((n : ℝ) * Real.pi))

/-- Lowpass FIR design (`dsp.rs` lines 210-238): Kaiser window, loud failure
on an even window length, then the windowed ideal taps. -/
noncomputable def lowpass (cutout atten delta_w : ℝ) : Option (List ℝ) :=
  match kaiser atten delta_w with
  | none => none
  | some window =>
    if window.length % 2 = 0 then none
    else product (lowpassIdeal cutout window.length) window

/-- Direct-form FIR convolution (`dsp.rs` lines 140-157): for each output
index `i` the inner loop adds `signal[i-j] * coeff[j]` for
`j ∈ [0, coeff.len())`, subject to the source's strict test `i > j`. -/
noncomputable def filter (signal coeff : List ℝ) : List ℝ :=
  (List.range signal.length).map (fun i =>
    (List.range coeff.length).foldl
      (fun sum j =>
        if i > j then sum + signal.getD (i - j) 0 * coeff.getD j 0 else sum)
      0)

/-- AM envelope demodulation (`dsp.rs` lines 121-137): quadrature channel
through the Hilbert filter, then the magnitude with the in-phase channel
delayed by half the filter length. -/
noncomputable def demodulate (signal : List ℝ) (atten delta_w : ℝ) : Option (List ℝ) :=
  match hilbert atten delta_w with
  | none => none
  | some h_filter =>
    let imag := filter signal h_filter
    let delay := h_filter.length / 2
    some ((List.range signal.length).map (fun i =>
      if i ≥ delay then
        Real.sqrt ((imag.getD i 0) ^ 2 + (signal.getD (i - delay) 0) ^ 2)
      else 0))

/-- One output sample of the interpolating branch of `resample`
(`dsp.rs` lines 71-95): `n0` is the first index at or after `t - offset`
(clipped at `0`) that is a multiple of `l`, and the inner
`while n <= t + offset` loop stepping by `l` is written as a sum over `k`
with `n = n0 + k*l`; indices `n/l` beyond the end of the signal contribute
nothing, exactly as the source's `signal.get(n/l)` match. -/
noncomputable def resampleSample (signal : List ℝ) (l : ℕ) (f : List ℝ) (t : ℕ) : ℝ :=
  let offset := (f.length - 1) / 2
  let n0 : ℕ :=
    if t > offset then
      if (t - offset) % l = 0 then t - offset
      else t - offset + (l - (t - offset) % l)
    else 0
  ∑ k ∈ (Finset.range ((t + offset - n0) / l + 1)).filter
      (fun k => n0 + k * l ≤ t + offset),
    match signal.get? ((n0 + k * l) / l) with
    | some sample => f.getD (n0 + k * l + offset - t) 0 * sample
    | none => 0

/-- The output loop of the interpolating branch (`dsp.rs` lines 69-98):
`t` starts at `0` and steps by `m` while `t < signal.len() * l`, pushing one
sample per iteration.  `fuel` bounds the number of iterations; exhausting it
models nontermination as `none`.  `resample` supplies `signal.len()*l + 1`
units of fuel, which is enough whenever `m ≥ 1` (`resampleLoop_isSome`). -/
def resampleLoop (sigLen : ℕ) (l m : ℕ) (sample : ℕ → ℝ) :
    ℕ → ℕ → Option (List ℝ)
  | 0, _ => none
  | fuel + 1, t =>
    if t < sigLen * l then
      (resampleLoop sigLen l m sample fuel (t + m)).map (sample t :: ·)
    else some []

/-- Rational resampler (`dsp.rs` lines 49-118).  Both branches begin with
`Vec::with_capacity` whose capacity divides by `m`, a panic when `m = 0`,
modelled as `none`.  The interpolating branch (`l > 1`) designs
`lowpass(1/l, atten, delta_w)` and runs the output loop; the other branch
decimates directly with `y[i] = x[i*m]`. -/
noncomputable def resample (signal : List ℝ) (l m : ℕ) (atten delta_w : ℝ) :
    Option (List ℝ) :=
  if l > 1 then
    if m = 0 then none
    else
      match lowpass (1 / (l : ℝ)) atten delta_w with
      | none => none
      | some f =>
        resampleLoop signal.length l m (resampleSample signal l f)
          (signal.length * l + 1) 0
  else
    if m = 0 then none
    else some ((List.range (signal.length / m)).map (fun i => signal.getD (i * m) 0))

/-! ### Generic helper lemmas -/

/-- A left fold that conditionally accumulates `f j` over `List.range n` is
the matching guarded sum. -/
lemma foldl_ite_add (f : ℕ → ℝ) (p : ℕ → Prop) [DecidablePred p] :
    ∀ (n : ℕ) (init : ℝ),
      (List.range n).foldl (fun s j => if p j then s + f j else s) init =
        init + ∑ j ∈ Finset.range n, if p j then f j else 0 := by
  intro n
  induction n with
  | zero => intro init; simp
  | succ n ih =>
    intro init
    rw [List.range_succ, List.foldl_append, ih, Finset.sum_range_succ,
      List.foldl_cons, List.foldl_nil]
    by_cases hp : p n
    · simp only [hp, if_true]
      ring
    · simp [hp]

/-! ### C1: direct-form convolution -/

lemma filter_length (x h : List ℝ) : (filter x h).length = x.length := by
  simp [filter]

lemma filter_getD (x h : List ℝ) {i : ℕ} (hi : i < x.length) :
    (filter x h).getD i 0 =
      ∑ j ∈ (Finset.range h.length).filter (fun j => j < i),
        h.getD j 0 * x.getD (i - j) 0 := by
  have hi' : i < (filter x h).length := by rwa [filter_length]
  rw [List.getD_eq_getElem _ _ hi']
  unfold filter
  simp only [List.getElem_map, List.getElem_range]
  rw [foldl_ite_add (fun j => x.getD (i - j) 0 * h.getD j 0) (fun j => i > j)]
  rw [Finset.sum_filter]
  rw [zero_add]
  exact Finset.sum_congr rfl (fun j _ => by
    by_cases hj : j < i <;> simp [hj, gt_iff_lt, mul_comm])

/-- C1: for every signal `x` and coefficient vector `h`, `filter x h` has the
same length as `x`, and its `i`-th sample is the sum of `h[j]·x[i-j]` over
exactly those `j` with `0 ≤ j < |h|` and `j < i` (strict, so the `j = i` term
is excluded); in particular output sample `0` is always `0`. -/
theorem filter_convolution_C1 (x h : List ℝ) :
    (filter x h).length = x.length ∧
    (∀ i, i < x.length →
      (filter x h).getD i 0 =
        ∑ j ∈ (Finset.range h.length).filter (fun j => j < i),
          h.getD j 0 * x.getD (i - j) 0) ∧
    (0 < x.length → (filter x h).getD 0 0 = 0) := by
  refine ⟨filter_length x h, fun i hi => filter_getD x h hi, fun h0 => ?_⟩
  rw [filter_getD x h h0]
  simp

/-- Witness for C1 at `x = [1, 2]`, `h = [10]`: the second output sample is
`h[0]·x[1] = 20`, and the sum at `i = 1` ranges over exactly `j = 0`. -/
theorem filter_convolution_C1_witness :
    (filter [(1 : ℝ), 2] [10]).getD 1 0 = 20 := by
  have h := (filter_convolution_C1 [(1 : ℝ), 2] [10]).2.1 1 (by norm_num)
  rw [h]
  norm_num [Finset.sum_filter, Finset.sum_range_succ]

/-! ### The Bessel series and the Kaiser window -/

lemma bessel_i0_term_nonneg (x : ℝ) (k : ℕ) :
    0 ≤ (x / 2) ^ (2 * k) / ((Nat.factorial k : ℝ)) ^ 2 := by
  apply div_nonneg
  · rw [pow_mul]
    positivity
  · positivity

lemma bessel_i0_summable (x : ℝ) :
    Summable (fun k : ℕ => (x / 2) ^ (2 * k) / ((Nat.factorial k : ℝ)) ^ 2) := by
  apply Summable.of_nonneg_of_le (bessel_i0_term_nonneg x)
    (f := fun k => ((x / 2) ^ 2) ^ k / (Nat.factorial k : ℝ))
  · intro k
    rw [pow_mul]
    have hfac : (1 : ℝ) ≤ (Nat.factorial k : ℝ) := by
      exact_mod_cast Nat.one_le_iff_ne_zero.mpr (Nat.factorial_ne_zero k)
    have hle : (Nat.factorial k : ℝ) ≤ ((Nat.factorial k : ℝ)) ^ 2 := by
      nlinarith
    exact div_le_div_of_nonneg_left (by positivity) (by linarith) hle
  · exact Real.summable_pow_div_factorial ((x / 2) ^ 2)

lemma bessel_i0_ge_one (x : ℝ) : 1 ≤ bessel_i0 x := by
  unfold bessel_i0
  have h := le_tsum (bessel_i0_summable x) 0 (fun j _ => bessel_i0_term_nonneg x j)
  have h0 : (x / 2) ^ (2 * 0) / ((Nat.factorial 0 : ℝ)) ^ 2 = 1 := by
    norm_num [Nat.factorial]
  rw [h0] at h
  exact h

lemma bessel_i0_pos (x : ℝ) : 0 < bessel_i0 x :=
  lt_of_lt_of_le one_pos (bessel_i0_ge_one x)

lemma bessel_i0_ne_zero (x : ℝ) : bessel_i0 x ≠ 0 :=
  ne_of_gt (bessel_i0_pos x)

lemma bessel_i0_zero : bessel_i0 0 = 1 := by
  unfold bessel_i0
  rw [tsum_eq_single 0 (fun k hk => ?_)]
  · norm_num
  · have h2k : 2 * k ≠ 0 := by omega
    rw [zero_div, zero_pow h2k, zero_div]

lemma kaiserBeta_nonneg (atten : ℝ) : 0 ≤ kaiserBeta atten := by
  unfold kaiserBeta
  split
  · linarith
  · split
    · exact le_refl 0
    · rename_i h50 h21
      push_neg at h50 h21
      have h : (0 : ℝ) ≤ atten - 21 := by linarith
      have hr : 0 ≤ Real.rpow (atten - 21) 0.4 := Real.rpow_nonneg h 0.4
      nlinarith

lemma kaiserLength_odd (atten delta_w : ℝ) : kaiserLength atten delta_w % 2 = 1 := by
  unfold kaiserLength
  set l0 : ℤ := ⌈(atten - 8) / (2.285 * Real.pi * delta_w)⌉ + 1 with hl0
  by_cases h : l0 % 2 = 0 <;> simp [h] <;> omega

lemma kaiser_some_iff (atten delta_w : ℝ) {w : List ℝ} :
    kaiser atten delta_w = some w ↔
      0 ≤ kaiserLength atten delta_w ∧
        w = (List.range (kaiserLength atten delta_w).toNat).map
          (kaiserTap atten delta_w) := by
  unfold kaiser
  split
  · rename_i hneg
    constructor
    · intro h
      cases h
    · rintro ⟨hpos, -⟩
      exact absurd hneg (not_lt.mpr hpos)
  · rename_i hpos
    push_neg at hpos
    constructor
    · intro h
      exact ⟨hpos, (Option.some_injective _ h).symm⟩
    · intro ⟨_, h⟩
      rw [h]

lemma kaiser_length {atten delta_w : ℝ} {w : List ℝ}
    (h : kaiser atten delta_w = some w) :
    (w.length : ℤ) = kaiserLength atten delta_w := by
  obtain ⟨hpos, hw⟩ := (kaiser_some_iff atten delta_w).mp h
  rw [hw]
  simp [Int.toNat_of_nonneg hpos]

lemma kaiser_length_odd {atten delta_w : ℝ} {w : List ℝ}
    (h : kaiser atten delta_w = some w) : w.length % 2 = 1 := by
  have hl := kaiser_length h
  have hodd := kaiserLength_odd atten delta_w
  omega

lemma kaiser_getD {atten delta_w : ℝ} {w : List ℝ}
    (h : kaiser atten delta_w = some w) {j : ℕ} (hj : j < w.length) :
    w.getD j 0 = kaiserTap atten delta_w j := by
  obtain ⟨hpos, hw⟩ := (kaiser_some_iff atten delta_w).mp h
  subst hw
  rw [List.getD_eq_getElem _ _ hj]
  simp

/-- Kaiser taps only depend on the square of the distance to the center. -/
lemma kaiserTap_congr (atten delta_w : ℝ) (j k : ℕ)
    (hsq : ((j : ℝ) - (((kaiserLength atten delta_w - 1) / 2 : ℤ) : ℝ)) ^ 2 =
           ((k : ℝ) - (((kaiserLength atten delta_w - 1) / 2 : ℤ) : ℝ)) ^ 2) :
    kaiserTap atten delta_w j = kaiserTap atten delta_w k := by
  simp only [kaiserTap]
  rw [div_pow, hsq, ← div_pow]

/-- The center tap of any returned Kaiser window is `1`. -/
lemma kaiser_center {atten delta_w : ℝ} {w : List ℝ}
    (h : kaiser atten delta_w = some w) :
    w.getD ((w.length - 1) / 2) 0 = 1 := by
  have hodd := kaiser_length_odd h
  have hlen : 1 ≤ w.length := by omega
  have hj : (w.length - 1) / 2 < w.length := by omega
  rw [kaiser_getD h hj]
  have hL := kaiser_length h
  have hc : ((((w.length - 1) / 2 : ℕ) : ℝ)) =
      (((kaiserLength atten delta_w - 1) / 2 : ℤ) : ℝ) := by
    have hz : ((((w.length - 1) / 2 : ℕ) : ℤ)) =
        (kaiserLength atten delta_w - 1) / 2 := by
      omega
    rw [← hz]
    norm_cast
  simp only [kaiserTap]
  rw [hc, sub_self, zero_div]
  norm_num [Real.sqrt_one]
  exact div_self (bessel_i0_ne_zero _)

/-- Any returned Kaiser window is symmetric about its center. -/
lemma kaiser_symm {atten delta_w : ℝ} {w : List ℝ}
    (h : kaiser atten delta_w = some w) {j : ℕ} (hj : j < w.length) :
    w.getD j 0 = w.getD (w.length - 1 - j) 0 := by
  have hodd := kaiser_length_odd h
  have hj' : w.length - 1 - j < w.length := by omega
  rw [kaiser_getD h hj, kaiser_getD h hj']
  apply kaiserTap_congr
  have hL := kaiser_length h
  have hz : ((w.length - 1 - j : ℕ) : ℤ) =
      2 * ((kaiserLength atten delta_w - 1) / 2) - (j : ℤ) := by
    omega
  have hcast : ((w.length - 1 - j : ℕ) : ℝ) =
      2 * (((kaiserLength atten delta_w - 1) / 2 : ℤ) : ℝ) - (j : ℝ) := by
    exact_mod_cast congrArg (fun z : ℤ => (z : ℝ)) hz
  rw [hcast]
  ring

lemma kaiserBeta_eight : kaiserBeta 8 = 0 := by
  unfold kaiserBeta
  norm_num

lemma kaiserLength_eight (delta_w : ℝ) : kaiserLength 8 delta_w = 1 := by
  unfold kaiserLength
  norm_num

/-- At `atten = 8` the window length formula gives exactly `1`, so the window
is the single tap `[1]`, for every transition width. -/
lemma kaiser_eight (delta_w : ℝ) : kaiser 8 delta_w = some [1] := by
  have htap : kaiserTap 8 delta_w 0 = 1 := by
    simp only [kaiserTap]
    rw [kaiserBeta_eight]
    simp [bessel_i0_zero]
  unfold kaiser
  rw [kaiserLength_eight]
  norm_num [List.range_succ, htap]

/-! ### Elementwise product and the two filter designs -/

lemma product_eq_some {v1 v2 : List ℝ} (h : v1.length = v2.length) :
    product v1 v2 = some (List.zipWith (fun a b => a * b) v1 v2) := by
  simp [product, h]

lemma product_eq_none_iff (v1 v2 : List ℝ) :
    product v1 v2 = none ↔ v1.length ≠ v2.length := by
  unfold product
  split <;> simp_all

lemma hilbertIdeal_length {m : ℕ} (hm : m % 2 = 1) :
    (hilbertIdeal m).length = m := by
  unfold hilbertIdeal
  rw [List.length_map, List.length_range]
  omega

lemma hilbertIdeal_getD (m : ℕ) {j : ℕ} (hj : j < (hilbertIdeal m).length) :
    (hilbertIdeal m).getD j 0 =
      (if ((j : ℤ) - ((m - 1) / 2 : ℕ)) % 2 ≠ 0 then
        2 / (Real.pi * (((j : ℤ) - ((m - 1) / 2 : ℕ) : ℤ) : ℝ)) else 0) := by
  rw [List.getD_eq_getElem _ _ hj]
  simp only [hilbertIdeal, List.getElem_map, List.getElem_range]

lemma lowpassIdeal_length (cutout : ℝ) {m : ℕ} (hm : m % 2 = 1) :
    (lowpassIdeal cutout m).length = m := by
  unfold lowpassIdeal
  rw [List.length_map, List.length_range]
  omega

lemma lowpassIdeal_getD (cutout : ℝ) (m : ℕ) {j : ℕ}
    (hj : j < (lowpassIdeal cutout m).length) :
    (lowpassIdeal cutout m).getD j 0 =
      (if ((j : ℤ) - ((m - 1) / 2 : ℕ)) = 0 then cutout
       else Real.sin ((((j : ℤ) - ((m - 1) / 2 : ℕ) : ℤ) : ℝ) * Real.pi * cutout) /
         ((((j : ℤ) - ((m - 1) / 2 : ℕ) : ℤ) : ℝ) * Real.pi)) := by
  rw [List.getD_eq_getElem _ _ hj]
  simp only [lowpassIdeal, List.getElem_map, List.getElem_range]

/-- When the Kaiser design succeeds, `hilbert` returns the windowed ideal
taps: the even-length panic branch is never taken and `product` succeeds. -/
lemma hilbert_intro {atten delta_w : ℝ} {w : List ℝ}
    (hk : kaiser atten delta_w = some w) :
    hilbert atten delta_w =
      some (List.zipWith (fun a b => a * b) (hilbertIdeal w.length) w) := by
  have hodd := kaiser_length_odd hk
  unfold hilbert
  rw [hk]
  dsimp only
  rw [if_neg (by omega)]
  exact product_eq_some (hilbertIdeal_length hodd)

lemma hilbert_elim {atten delta_w : ℝ} {h : List ℝ}
    (hh : hilbert atten delta_w = some h) :
    ∃ w, kaiser atten delta_w = some w ∧
      h = List.zipWith (fun a b => a * b) (hilbertIdeal w.length) w ∧
      h.length = w.length := by
  rcases hk : kaiser atten delta_w with - | w
  · unfold hilbert at hh
    rw [hk] at hh
    cases hh
  · have hodd := kaiser_length_odd hk
    have := hilbert_intro hk
    rw [this] at hh
    refine ⟨w, rfl, (Option.some_injective _ hh).symm, ?_⟩
    have hl := congrArg List.length (Option.some_injective _ hh)
    rw [← hl, List.length_zipWith, hilbertIdeal_length hodd, min_self]

/-- When the Kaiser design succeeds, `lowpass` returns the windowed ideal
taps: the even-length panic branch is never taken and `product` succeeds. -/
lemma lowpass_intro (cutout : ℝ) {atten delta_w : ℝ} {w : List ℝ}
    (hk : kaiser atten delta_w = some w) :
    lowpass cutout atten delta_w =
      some (List.zipWith (fun a b => a * b) (lowpassIdeal cutout w.length) w) := by
  have hodd := kaiser_length_odd hk
  unfold lowpass
  rw [hk]
  dsimp only
  rw [if_neg (by omega)]
  exact product_eq_some (lowpassIdeal_length cutout hodd)

lemma hilbert_eight (delta_w : ℝ) : hilbert 8 delta_w = some [0] := by
  rw [hilbert_intro (kaiser_eight delta_w)]
  have hid : hilbertIdeal 1 = [0] := by
    simp [hilbertIdeal, List.range_succ]
  norm_num [hid]

lemma lowpass_eight (cutout delta_w : ℝ) :
    lowpass cutout 8 delta_w = some [cutout] := by
  rw [lowpass_intro cutout (kaiser_eight delta_w)]
  have hid : lowpassIdeal cutout 1 = [cutout] := by
    simp [lowpassIdeal, List.range_succ]
  norm_num [hid]

/-! ### C6: odd window length, unreachable panic branch, unit center tap -/

/-- C6: for attenuation `atten` and `delta_w ∈ (0,1)`, any window `kaiser`
returns has odd length, its center tap `w[(L-1)/2]` is `1`, and consequently
the even-length panic branch in `hilbert` and `lowpass` is unreachable: both
designs succeed whenever the window design does. -/
theorem kaiser_odd_center_C6 (atten delta_w : ℝ)
    (h1 : 0 < delta_w) (h2 : delta_w < 1) (w : List ℝ)
    (hw : kaiser atten delta_w = some w) :
    Odd w.length ∧ w.getD ((w.length - 1) / 2) 0 = 1 ∧
      (hilbert atten delta_w).isSome ∧
      ∀ c, (lowpass c atten delta_w).isSome := by
  have hodd := kaiser_length_odd hw
  refine ⟨Nat.odd_iff.mpr hodd, kaiser_center hw, ?_, fun c => ?_⟩
  · rw [hilbert_intro hw]
    rfl
  · rw [lowpass_intro c hw]
    rfl

/-- Witness for C6 at `atten = 8`, `delta_w = 1/2`: the window is `[1]`,
of odd length `1` and center tap `1`. -/
theorem kaiser_odd_center_C6_witness :
    Odd [(1 : ℝ)].length ∧ [(1 : ℝ)].getD 0 0 = 1 := by
  have h := kaiser_odd_center_C6 8 (1 / 2) (by norm_num) (by norm_num)
    [1] (kaiser_eight (1 / 2))
  exact ⟨h.1, h.2.1⟩

/-! ### C7: the Kaiser tap formula and the beta branches -/

/-- C7: for `delta_w ∈ (0,1)`, the shape parameter follows Kaiser's
three-branch formula, and every returned window tap at signed offset `k` from
the center equals `I₀(β·√(1 − (k/(L/2))²)) / I₀(β)`, where the radical's
denominator is `L/2` with `L` the total window length. -/
theorem kaiser_taps_C7 (atten delta_w : ℝ) (h1 : 0 < delta_w) (h2 : delta_w < 1) :
    ((atten > 50 → kaiserBeta atten = 0.1102 * (atten - 8.7)) ∧
     (21 ≤ atten → atten ≤ 50 → kaiserBeta atten =
        0.5842 * Real.rpow (atten - 21) 0.4 + 0.07886 * (atten - 21)) ∧
     (atten < 21 → kaiserBeta atten = 0)) ∧
    (∀ w, kaiser atten delta_w = some w →
      ∀ k : ℤ, -(((w.length : ℤ) - 1) / 2) ≤ k → k ≤ ((w.length : ℤ) - 1) / 2 →
        w.getD ((((w.length : ℤ) - 1) / 2 + k).toNat) 0 =
          bessel_i0 (kaiserBeta atten *
            Real.sqrt (1 - ((k : ℝ) / ((w.length : ℝ) / 2)) ^ 2)) /
          bessel_i0 (kaiserBeta atten)) := by
  constructor
  · refine ⟨fun h50 => ?_, fun h21 h50 => ?_, fun h21 => ?_⟩
    · unfold kaiserBeta
      rw [if_pos h50]
    · unfold kaiserBeta
      rw [if_neg (by linarith), if_neg (by linarith)]
    · unfold kaiserBeta
      rw [if_neg (by linarith), if_pos h21]
  · intro w hw k hk1 hk2
    have hodd := kaiser_length_odd hw
    have hL := kaiser_length hw
    have hlen : 1 ≤ w.length := by omega
    set c : ℤ := ((w.length : ℤ) - 1) / 2 with hc
    have hj : (c + k).toNat < w.length := by omega
    rw [kaiser_getD hw hj]
    simp only [kaiserTap]
    have hcz : (((kaiserLength atten delta_w - 1) / 2 : ℤ)) = c := by omega
    have hn : (((c + k).toNat : ℕ) : ℝ) - (((kaiserLength atten delta_w - 1) / 2 : ℤ) : ℝ) =
        (k : ℝ) := by
      rw [hcz]
      have : (((c + k).toNat : ℕ) : ℤ) = c + k := by omega
      have hr : (((c + k).toNat : ℕ) : ℝ) = ((c : ℝ) + (k : ℝ)) := by
        exact_mod_cast congrArg (fun z : ℤ => (z : ℝ)) this
      rw [hr]
      ring
    rw [hn]
    have hm : ((kaiserLength atten delta_w : ℤ) : ℝ) = (w.length : ℝ) := by
      rw [← hL]
      norm_cast
    rw [hm]

/-- Witness for C7 at `atten = 8`, `delta_w = 1/2`: `β = 0` by the third
branch, and the center tap of the returned window `[1]` matches the formula
at offset `k = 0`. -/
theorem kaiser_taps_C7_witness :
    kaiserBeta 8 = 0 ∧
    [(1 : ℝ)].getD 0 0 =
      bessel_i0 (kaiserBeta 8 * Real.sqrt (1 - ((0 : ℝ) / (1 / 2)) ^ 2)) /
        bessel_i0 (kaiserBeta 8) := by
  have h := kaiser_taps_C7 8 (1 / 2) (by norm_num) (by norm_num)
  refine ⟨h.1.2.2 (by norm_num), ?_⟩
  have ht := h.2 [1] (kaiser_eight (1 / 2)) 0 (by norm_num) (by norm_num)
  simpa using ht

/-! ### C8: antisymmetry of the Hilbert design -/

/-- The ideal Hilbert taps before windowing at length `7`, center `3`. -/
lemma hilbertIdeal_seven :
    hilbertIdeal 7 = [-2 / (3 * Real.pi), 0, -2 / Real.pi, 0, 2 / Real.pi, 0,
      2 / (3 * Real.pi)] := by
  simp only [hilbertIdeal, List.range_succ, List.range_zero, List.map_append,
    List.map_cons, List.map_nil, List.nil_append, List.cons_append]
  norm_num
  refine ⟨?_, ?_, ?_⟩ <;> ring

/-- Any returned Hilbert filter tap is the ideal tap times the window tap. -/
lemma hilbert_getD {atten delta_w : ℝ} {h w : List ℝ}
    (hw : kaiser atten delta_w = some w)
    (heq : h = List.zipWith (fun a b => a * b) (hilbertIdeal w.length) w)
    {k : ℕ} (hk : k < h.length) :
    h.getD k 0 = (hilbertIdeal w.length).getD k 0 * w.getD k 0 := by
  have hodd := kaiser_length_odd hw
  have hidlen := hilbertIdeal_length hodd
  subst heq
  have hkz : k < (List.zipWith (fun a b => a * b) (hilbertIdeal w.length) w).length := hk
  have hkw : k < w.length := by
    rw [List.length_zipWith, hidlen, min_self] at hk
    exact hk
  rw [List.getD_eq_getElem _ _ hkz, List.getElem_zipWith,
    List.getD_eq_getElem _ _ (by rwa [hidlen] : k < (hilbertIdeal w.length).length),
    List.getD_eq_getElem _ _ hkw]

/-- C8: for `delta_w ∈ (0,1)`, every returned Hilbert filter is antisymmetric
about its center (`h[k] = -h[M-1-k]`), its center tap is `0`, every tap at an
even signed offset from the center is `0`, and the ideal taps before
windowing at length `7` are `[-2/(3π), 0, -2/π, 0, 2/π, 0, 2/(3π)]`. -/
theorem hilbert_antisymmetric_C8 (atten delta_w : ℝ)
    (h1 : 0 < delta_w) (h2 : delta_w < 1) :
    (∀ h, hilbert atten delta_w = some h →
      (∀ k, k < h.length → h.getD k 0 = - h.getD (h.length - 1 - k) 0) ∧
      h.getD ((h.length - 1) / 2) 0 = 0 ∧
      (∀ k, k < h.length →
        ((k : ℤ) - ((h.length - 1) / 2 : ℕ)) % 2 = 0 → h.getD k 0 = 0)) ∧
    hilbertIdeal 7 = [-2 / (3 * Real.pi), 0, -2 / Real.pi, 0, 2 / Real.pi, 0,
      2 / (3 * Real.pi)] := by
  refine ⟨?_, hilbertIdeal_seven⟩
  intro h hh
  obtain ⟨w, hw, heq, hlen⟩ := hilbert_elim hh
  have hodd := kaiser_length_odd hw
  have hodd' : h.length % 2 = 1 := by omega
  have hpos : 1 ≤ h.length := by omega
  have hidlen := hilbertIdeal_length hodd
  have heven : ∀ k, k < h.length →
      ((k : ℤ) - ((h.length - 1) / 2 : ℕ)) % 2 = 0 → h.getD k 0 = 0 := by
    intro k hk hkeven
    rw [hilbert_getD hw heq hk]
    have hkw : k < w.length := by omega
    rw [hilbertIdeal_getD _ (by omega : k < (hilbertIdeal w.length).length)]
    rw [if_neg (by push_neg; omega)]
    exact zero_mul _
  refine ⟨?_, ?_, heven⟩
  · intro k hk
    have hk' : h.length - 1 - k < h.length := by omega
    rw [hilbert_getD hw heq hk, hilbert_getD hw heq hk']
    have hkw : k < w.length := by omega
    have hws : w.getD k 0 = w.getD (w.length - 1 - k) 0 := kaiser_symm hw hkw
    have hidx : h.length - 1 - k = w.length - 1 - k := by omega
    rw [hidx]
    have hid : (hilbertIdeal w.length).getD (w.length - 1 - k) 0 =
        - (hilbertIdeal w.length).getD k 0 := by
      rw [hilbertIdeal_getD _ (by omega : k < (hilbertIdeal w.length).length),
        hilbertIdeal_getD _
          (by omega : w.length - 1 - k < (hilbertIdeal w.length).length)]
      have hnz : ((w.length - 1 - k : ℕ) : ℤ) - ((w.length - 1) / 2 : ℕ) =
          -(((k : ℕ) : ℤ) - ((w.length - 1) / 2 : ℕ)) := by omega
      rw [hnz]
      by_cases hpar : (((k : ℕ) : ℤ) - ((w.length - 1) / 2 : ℕ)) % 2 = 0
      · rw [if_neg (by omega), if_neg (by push_neg; exact hpar)]
        exact neg_zero.symm
      · rw [if_pos (by omega), if_pos hpar]
        push_cast
        rw [mul_neg, div_neg]
    rw [hid, hws, neg_mul, neg_neg]
  · have hc : (h.length - 1) / 2 < h.length := by omega
    apply heven _ hc
    omega

/-- Witness for C8 at `atten = 8`, `delta_w = 1/2`: the filter is `[0]`,
whose single (center) tap is `0` and equal to its own negation. -/
theorem hilbert_antisymmetric_C8_witness :
    [(0 : ℝ)].getD 0 0 = - [(0 : ℝ)].getD 0 0 ∧ [(0 : ℝ)].getD 0 0 = 0 := by
  have h := (hilbert_antisymmetric_C8 8 (1 / 2) (by norm_num) (by norm_num)).1
    [0] (hilbert_eight (1 / 2))
  exact ⟨h.1 0 (by norm_num), h.2.1⟩

/-! ### C9: the elementwise product -/

/-- C9: `product v1 v2` panics exactly when the lengths differ; on equal
lengths it returns the elementwise product without panicking, and the result
is commutative. -/
theorem product_spec_C9 (v1 v2 : List ℝ) :
    (product v1 v2 = none ↔ v1.length ≠ v2.length) ∧
    (v1.length = v2.length →
      ∀ w, product v1 v2 = some w →
        w.length = v1.length ∧
        (∀ i, i < v1.length → w.getD i 0 = v1.getD i 0 * v2.getD i 0) ∧
        product v1 v2 = product v2 v1) := by
  refine ⟨product_eq_none_iff v1 v2, fun hlen w hw => ?_⟩
  rw [product_eq_some hlen] at hw
  obtain rfl := (Option.some_injective _ hw).symm
  refine ⟨?_, ?_, ?_⟩
  · rw [List.length_zipWith, ← hlen, min_self]
  · intro i hi
    have hi1 : i < (List.zipWith (fun a b => a * b) v1 v2).length := by
      rw [List.length_zipWith, ← hlen, min_self]
      exact hi
    rw [List.getD_eq_getElem _ _ hi1, List.getElem_zipWith,
      List.getD_eq_getElem _ _ hi, List.getD_eq_getElem _ _ (hlen ▸ hi)]
  · rw [product_eq_some hlen, product_eq_some hlen.symm]
    exact congrArg some (List.zipWith_comm_of_comm _ mul_comm v1 v2)

/-- Witness for C9 at `v1 = [2,3]`, `v2 = [4,5]`: equal lengths, and the
product commutes. -/
theorem product_spec_C9_witness :
    product [(2 : ℝ), 3] [4, 5] = product [4, 5] [(2 : ℝ), 3] :=
  ((product_spec_C9 [(2 : ℝ), 3] [4, 5]).2 rfl _ (product_eq_some rfl)).2.2

/-! ### C2: AM envelope demodulation -/

/-- C2: when the Hilbert design succeeds with filter `h`, `demodulate`
returns a signal of the input's length whose first `|h|/2` samples are `0`
and whose later samples are `√(x_q[i]² + x[i-d]²)` with `x_q = filter x h`
and `d = |h|/2` (integer division). -/
theorem demodulate_spec_C2 (x : List ℝ) (atten delta_w : ℝ) (h out : List ℝ)
    (hh : hilbert atten delta_w = some h)
    (hout : demodulate x atten delta_w = some out) :
    out.length = x.length ∧
    (∀ i, i < x.length → i < h.length / 2 → out.getD i 0 = 0) ∧
    (∀ i, i < x.length → h.length / 2 ≤ i →
      out.getD i 0 = Real.sqrt (((filter x h).getD i 0) ^ 2 +
        (x.getD (i - h.length / 2) 0) ^ 2)) := by
  unfold demodulate at hout
  rw [hh] at hout
  dsimp only at hout
  obtain rfl := (Option.some_injective _ hout).symm
  refine ⟨by simp, ?_, ?_⟩
  · intro i hix hid
    have hi1 : i < (List.range x.length).length := by simpa using hix
    rw [List.getD_eq_getElem _ _ (by simpa using hix), List.getElem_map,
      List.getElem_range, if_neg (by omega)]
  · intro i hix hid
    rw [List.getD_eq_getElem _ _ (by simpa using hix), List.getElem_map,
      List.getElem_range, if_pos (by omega)]

/-- At `atten = 8` the Hilbert filter is `[0]`, so `demodulate` has delay `0`
and every output sample is `√(x_q[i]² + x[i]²)`. -/
lemma demodulate_eight (x : List ℝ) :
    demodulate x 8 (1 / 2) = some ((List.range x.length).map (fun i =>
      Real.sqrt (((filter x [0]).getD i 0) ^ 2 + (x.getD i 0) ^ 2))) := by
  unfold demodulate
  rw [hilbert_eight]
  dsimp only
  norm_num

/-- Witness for C2 at `x = [3,4]`, `atten = 8`, `delta_w = 1/2`: the output
has length `2`. -/
theorem demodulate_spec_C2_witness :
    ((List.range 2).map (fun i =>
      Real.sqrt (((filter [(3 : ℝ), 4] [0]).getD i 0) ^ 2 +
        ([(3 : ℝ), 4].getD i 0) ^ 2))).length = 2 := by
  have h := demodulate_spec_C2 [(3 : ℝ), 4] 8 (1 / 2) [0] _
    (hilbert_eight (1 / 2)) (demodulate_eight [(3 : ℝ), 4])
  exact h.1

/-! ### The resampling loop: length and termination -/

/-- Each successful run of the output loop emits one sample per multiple of
`m` in `[t, sigLen*l)`, i.e. `⌈(sigLen*l - t)/m⌉` samples. -/
lemma resampleLoop_length {sigLen l m : ℕ} {sample : ℕ → ℝ} (hm : 1 ≤ m) :
    ∀ (fuel t : ℕ) (out : List ℝ),
      resampleLoop sigLen l m sample fuel t = some out →
      out.length = (sigLen * l - t + m - 1) / m := by
  intro fuel
  induction fuel with
  | zero =>
    intro t out h
    cases h
  | succ fuel ih =>
    intro t out h
    rw [resampleLoop] at h
    split at h
    · rename_i hlt
      obtain ⟨out', hout', hcons⟩ := Option.map_eq_some'.mp h
      subst hcons
      have hrec := ih (t + m) out' hout'
      rw [List.length_cons, hrec]
      rcases le_or_lt (sigLen * l - t) m with hle | hgt
      · have h2 : (sigLen * l - (t + m) + m - 1) / m = 0 := by
          rw [show sigLen * l - (t + m) + m - 1 = m - 1 by omega]
          exact Nat.div_eq_of_lt (by omega)
        have h3 : (sigLen * l - t + m - 1) / m = 1 := by
          apply Nat.div_eq_of_lt_le
          · omega
          · omega
        omega
      · rw [show sigLen * l - (t + m) + m - 1 = sigLen * l - t - 1 by omega,
          show sigLen * l - t + m - 1 = (sigLen * l - t - 1) + m by omega,
          Nat.add_div_right _ (by omega)]
    · rename_i hge
      obtain rfl := (Option.some_injective _ h).symm
      rw [show sigLen * l - t + m - 1 = m - 1 by omega]
      rw [Nat.div_eq_of_lt (by omega)]
      rfl

/-- With `m ≥ 1`, the fuel budget `sigLen*l + 1` supplied by `resample` is
enough: the loop terminates. -/
lemma resampleLoop_isSome {sigLen l m : ℕ} {sample : ℕ → ℝ} (hm : 1 ≤ m) :
    ∀ (fuel t : ℕ), 1 ≤ fuel → sigLen * l + 1 ≤ t + fuel →
      (resampleLoop sigLen l m sample fuel t).isSome := by
  intro fuel
  induction fuel with
  | zero =>
    intro t h1 _
    omega
  | succ fuel ih =>
    intro t _ h2
    rw [resampleLoop]
    split
    · rename_i hlt
      have hres := ih (t + m) (by omega) (by omega)
      rw [Option.isSome_map']
      exact hres
    · rfl

/-- The number of multiples of `m` strictly below `N` is `⌈N/m⌉`, written
with natural division as `(N + m - 1) / m`. -/
lemma card_multiples_lt (m : ℕ) (hm : 1 ≤ m) (N : ℕ) :
    ((Finset.range N).filter (fun t => t % m = 0)).card = (N + m - 1) / m := by
  induction N with
  | zero =>
    rw [Finset.range_zero, Finset.filter_empty, Finset.card_empty]
    symm
    exact Nat.div_eq_of_lt (by omega)
  | succ N ih =>
    rw [Finset.range_succ, Finset.filter_insert]
    by_cases h : N % m = 0
    · rw [if_pos h, Finset.card_insert_of_not_mem (by simp), ih]
      obtain ⟨q, rfl⟩ := Nat.dvd_of_mod_eq_zero h
      have e1 : (m * q + m - 1) / m = q := by
        rw [show m * q + m - 1 = (m - 1) + m * q by omega,
          Nat.add_mul_div_left _ _ (by omega : 0 < m),
          Nat.div_eq_of_lt (by omega), Nat.zero_add]
      have e2 : (m * q + 1 + m - 1) / m = q + 1 := by
        rw [show m * q + 1 + m - 1 = m * q + m by omega,
          Nat.add_div_right _ (by omega : 0 < m),
          Nat.mul_div_cancel_left _ (by omega : 0 < m)]
      rw [e1, e2]
    · rw [if_neg h, ih]
      have hrm : N % m < m := Nat.mod_lt _ (by omega)
      have hN : N = m * (N / m) + N % m := (Nat.div_add_mod N m).symm
      rw [hN]
      have e1 : (m * (N / m) + N % m + m - 1) / m = N / m + 1 := by
        rw [show m * (N / m) + N % m + m - 1 = (N % m - 1) + m * (N / m + 1) by
            rw [Nat.mul_succ]; omega,
          Nat.add_mul_div_left _ _ (by omega : 0 < m),
          Nat.div_eq_of_lt (by omega), Nat.zero_add]
      have e2 : (m * (N / m) + N % m + 1 + m - 1) / m = N / m + 1 := by
        rw [show m * (N / m) + N % m + 1 + m - 1 = N % m + m * (N / m + 1) by
            rw [Nat.mul_succ]; omega,
          Nat.add_mul_div_left _ _ (by omega : 0 < m),
          Nat.div_eq_of_lt hrm, Nat.zero_add]
      rw [e1, e2]

/-! ### C3: output count of the interpolating branch -/

/-- C3: for `L > 1` and `M ≥ 1`, the interpolating branch emits exactly
`⌈|x|·L/M⌉ = (|x|·L + M - 1) / M` samples, the output loop terminates on the
fuel `resample` supplies whatever the designed filter is, and that count is
the number of multiples of `M` strictly below `|x|·L`. -/
theorem resample_interp_length_C3 (x : List ℝ) (l m : ℕ) (atten delta_w : ℝ)
    (hl : 1 < l) (hm : 1 ≤ m) :
    (∀ out, resample x l m atten delta_w = some out →
      out.length = (x.length * l + m - 1) / m) ∧
    (∀ f : List ℝ,
      (resampleLoop x.length l m (resampleSample x l f)
        (x.length * l + 1) 0).isSome) ∧
    (x.length * l + m - 1) / m =
      ((Finset.range (x.length * l)).filter (fun t => t % m = 0)).card := by
  refine ⟨?_, ?_, (card_multiples_lt m hm _).symm⟩
  · intro out hout
    unfold resample at hout
    rw [if_pos hl, if_neg (by omega)] at hout
    rcases hlp : lowpass (1 / (l : ℝ)) atten delta_w with - | f
    · rw [hlp] at hout
      cases hout
    · rw [hlp] at hout
      dsimp only at hout
      have hlen := resampleLoop_length hm _ _ _ hout
      rw [hlen, Nat.sub_zero]
  · intro f
    exact resampleLoop_isSome hm _ _ (by omega) (by omega)

/-- At `atten = 8` the anti-alias filter is the single tap `[1/2]`, and
`resample [1] 2 1` runs the loop with fuel `3` from `t = 0`. -/
lemma resample_two_one :
    resample [(1 : ℝ)] 2 1 8 (1 / 2) =
      some [resampleSample [(1 : ℝ)] 2 [(1 : ℝ) / 2] 0,
        resampleSample [(1 : ℝ)] 2 [(1 : ℝ) / 2] 1] := by
  unfold resample
  rw [if_pos (by norm_num), if_neg (by norm_num),
    show (1 / ((2 : ℕ) : ℝ)) = ((1 : ℝ) / 2) by norm_num, lowpass_eight]
  rfl

/-- Witness for C3 at `x = [1]`, `L = 2`, `M = 1`, `atten = 8`,
`delta_w = 1/2`: exactly `⌈1·2/1⌉ = 2` samples are emitted. -/
theorem resample_interp_length_C3_witness :
    [resampleSample [(1 : ℝ)] 2 [(1 : ℝ) / 2] 0,
      resampleSample [(1 : ℝ)] 2 [(1 : ℝ) / 2] 1].length = 2 := by
  have h := resample_interp_length_C3 [(1 : ℝ)] 2 1 8 (1 / 2)
    (by norm_num) (by norm_num)
  have hlen := h.1 _ resample_two_one
  exact hlen

/-! ### C4: the spec's floor formula versus the code's ceiling -/

/-- Counterexample to C4: at `x = [1]`, `(L, M) = (2, 3)` (coprime,
positive), `atten = 8`, `delta_w = 1/2`, the code emits `1` sample while
`⌊|x|·L/M⌋ = ⌊2/3⌋ = 0`. -/
theorem resample_floor_C4_counterexample :
    resample [(1 : ℝ)] 2 3 8 (1 / 2) =
      some [resampleSample [(1 : ℝ)] 2 [(1 : ℝ) / 2] 0] ∧
    [resampleSample [(1 : ℝ)] 2 [(1 : ℝ) / 2] 0].length ≠
      [(1 : ℝ)].length * 2 / 3 := by
  constructor
  · unfold resample
    rw [if_pos (by norm_num), if_neg (by norm_num),
      show (1 / ((2 : ℕ) : ℝ)) = ((1 : ℝ) / 2) by norm_num, lowpass_eight]
    rfl
  · norm_num

/-- C4 amended: with `M ≥ 1`, a successful `resample` returns
`⌈|x|·L/M⌉ = (|x|·L + M - 1)/M` samples in the interpolating branch
(`L > 1`) and `⌊|x|/M⌋` samples in the decimation branch (`L ≤ 1`); the
spec's unconditional floor formula holds only in the latter. -/
theorem resample_length_C4_amended (x : List ℝ) (l m : ℕ) (atten delta_w : ℝ)
    (hm : 1 ≤ m) (out : List ℝ)
    (hout : resample x l m atten delta_w = some out) :
    out.length = if 1 < l then (x.length * l + m - 1) / m else x.length / m := by
  by_cases hl : 1 < l
  · rw [if_pos hl]
    unfold resample at hout
    rw [if_pos hl, if_neg (by omega)] at hout
    rcases hlp : lowpass (1 / (l : ℝ)) atten delta_w with - | f
    · rw [hlp] at hout
      cases hout
    · rw [hlp] at hout
      dsimp only at hout
      have hlen := resampleLoop_length hm _ _ _ hout
      rw [hlen, Nat.sub_zero]
  · rw [if_neg hl]
    unfold resample at hout
    rw [if_neg hl, if_neg (by omega)] at hout
    obtain rfl := (Option.some_injective _ hout).symm
    simp

/-- Witness for the amended C4 in the decimation branch: `x = [1,2,3]`,
`M = 2` gives `⌊3/2⌋ = 1` sample. -/
theorem resample_length_C4_witness : [(1 : ℝ)].length = 3 / 2 := by
  have hres : resample [(1 : ℝ), 2, 3] 1 2 40 (1 / 10) = some [1] := by
    unfold resample
    norm_num [List.range_succ]
  have h := resample_length_C4_amended [(1 : ℝ), 2, 3] 1 2 40 (1 / 10)
    (by norm_num) [1] hres
  exact h

/-! ### C5: the decimation fast path -/

/-- C5: with `L = 1` and `M ≥ 1` the resampler bypasses filter design and
returns `y[i] = x[i·M]` for `i = 0 … ⌊|x|/M⌋ - 1`; in particular
`resample x 1 1` is the identity, and
`resample [1,2,3,4,5,6] 1 2 40 0.1 = [1,3,5]` exactly. -/
theorem resample_decimation_C5 :
    (∀ (x : List ℝ) (m : ℕ) (atten delta_w : ℝ), 1 ≤ m →
      resample x 1 m atten delta_w =
        some ((List.range (x.length / m)).map (fun i => x.getD (i * m) 0))) ∧
    (∀ (x : List ℝ) (atten delta_w : ℝ),
      resample x 1 1 atten delta_w = some x) ∧
    resample [(1 : ℝ), 2, 3, 4, 5, 6] 1 2 40 (1 / 10) = some [1, 3, 5] := by
  have hbase : ∀ (x : List ℝ) (m : ℕ) (atten delta_w : ℝ), 1 ≤ m →
      resample x 1 m atten delta_w =
        some ((List.range (x.length / m)).map (fun i => x.getD (i * m) 0)) := by
    intro x m atten delta_w hm
    unfold resample
    rw [if_neg (by omega), if_neg (by omega)]
  refine ⟨hbase, fun x atten delta_w => ?_, ?_⟩
  · rw [hbase x 1 atten delta_w le_rfl]
    refine congrArg some (List.ext_getElem (by simp) ?_)
    intro n h1 h2
    rw [List.getElem_map, List.getElem_range, mul_one,
      List.getD_eq_getElem _ _ h2]
  · rw [hbase _ 2 _ _ (by norm_num)]
    rfl

/-- Witness for C5 at `x = [5,6]`, `M = 2`: the decimated signal is `[5]`. -/
theorem resample_decimation_C5_witness :
    resample [(5 : ℝ), 6] 1 2 8 (1 / 2) = some [5] := by
  rw [resample_decimation_C5.1 [(5 : ℝ), 6] 2 8 (1 / 2) (by norm_num)]
  rfl

/-! ### C10: interpolation factor zero takes the decimation path -/

/-- C10: `L = 0`, outside the spec's domain, is routed by the `l > 1` test
into the decimation fast path, so `resample x 0 m` behaves exactly like
`resample x 1 m`: no filter is designed and no division by `L` occurs. -/
theorem resample_zero_factor_C10 (x : List ℝ) (m : ℕ) (atten delta_w : ℝ)
    (hm : 1 ≤ m) :
    resample x 0 m atten delta_w = resample x 1 m atten delta_w := by
  unfold resample
  rfl

/-- Witness for C10 at `x = [7,8]`, `M = 2`. -/
theorem resample_zero_factor_C10_witness :
    resample [(7 : ℝ), 8] 0 2 40 (1 / 10) =
      resample [(7 : ℝ), 8] 1 2 40 (1 / 10) :=
  resample_zero_factor_C10 [(7 : ℝ), 8] 2 40 (1 / 10) (by norm_num)

end Dsp
